import Mathlib

/-!
Verification development for the `qcrew-snail` repository.

The repository consists of `snail_solver/elements.py` (classes `SNAIL` and
`SNAIL2`) and the sweep driver `optimize_parameters_coupling.py`.  Python
floats are embedded as real numbers; calls into external scientific
libraries (`scipy.optimize.minimize`, `scipy.interpolate.
approximate_taylor_polynomial`, the qutip-based `Circuit` diagonalization)
are uninterpreted parameters of the embedded functions.
-/

open Real Finset

namespace SnailSolver

/-! ## Definitions -/

/-- Modelled from the spec: the reduced Planck constant `hbar` imported from
the `snail_solver.helper_functions` module, which is absent from the sources.
Its concrete value is irrelevant to every claim below. -/
def hbar : ℝ := 1.0545718e-34

/-- Modelled from the spec: the magnetic flux quantum imported from the
`snail_solver.helper_functions` module, which is absent from the sources.
Its concrete value is irrelevant to every claim below. -/
def flux_quantum : ℝ := 2.067833848e-15

/-- `np.arange start stop step`: the points `start + i * step` for
`0 ≤ i < ⌈(stop - start) / step⌉`. -/
noncomputable def arange (start stop step : ℝ) : List ℝ :=
  (List.range ⌈(stop - start) / step⌉₊).map (fun i : ℕ => start + (i : ℝ) * step)

/-- Python's `min` over a list of floats (the list is nonempty in every use). -/
def listMin : List ℝ → ℝ
  | [] => 0
  | x :: xs => xs.foldl min x

/-- `order = order if order else degree + 10` in `solve_expansion`: Python
treats both `None` and `0` as unset. -/
def resolveOrder (order : Option ℕ) (degree : ℕ) : ℕ :=
  match order with
  | none => degree + 10
  | some o => if o = 0 then degree + 10 else o

/-- The `SNAIL` class of `snail_solver/elements.py`: `n` josephson junctions of
energy `Ej` in one branch, one junction of energy `alpha * Ej` in the other,
threaded by the reduced external flux `phi_ext`. -/
structure SNAIL where
  n : ℕ
  alpha : ℝ
  phi_ext : ℝ
  Lj : ℝ

/-- `SNAIL.potential`: normalized potential (`Ej = 1`) at reduced flux `phi`. -/
noncomputable def SNAIL.potential (s : SNAIL) (phi : ℝ) : ℝ :=
  let pot_branch1 := -s.alpha * Real.cos phi
  let pot_branch2 := -(s.n : ℝ) * Real.cos ((s.phi_ext - phi) / (s.n : ℝ))
  pot_branch1 + pot_branch2

/-- `SNAIL.potential_derivative`: the derivative of the potential used by
`has_multiple_wells`. -/
noncomputable def SNAIL.potential_derivative (s : SNAIL) (phi : ℝ) : ℝ :=
  let pot_branch1_derivative := s.alpha * Real.sin phi
  let pot_branch2_derivative := -Real.sin ((s.phi_ext - phi) / (s.n : ℝ))
  pot_branch1_derivative + pot_branch2_derivative

/-- The sampling grid `np.arange(-np.pi * n, np.pi * n, 0.01)` of
`solve_expansion`. -/
noncomputable def SNAIL.phi_array (s : SNAIL) : List ℝ :=
  arange (-π * (s.n : ℝ)) (π * (s.n : ℝ)) 0.01

/-- `phi_min_0 = min(self.potential(phi) for phi in phi_array)`: the initial
guess handed to `scipy.optimize.minimize` in `SNAIL.solve_expansion`.  Note
that the code takes the minimum of the potential values, not the argmin. -/
noncomputable def SNAIL.phi_min_0 (s : SNAIL) : ℝ :=
  listMin (s.phi_array.map s.potential)

/-- `SNAIL.solve_expansion`: returns `(phi_min, Ej, taylor_potential)`.
`minimizeX f x0` stands for the uninterpreted `scipy.optimize.minimize(f,
x0).x[0]`; `approxTaylor f x0 degree scale order` stands for the coefficient
function of the uninterpreted `scipy.interpolate.
approximate_taylor_polynomial(f, x0, degree, scale, order)`, with
`approxTaylor f x0 degree scale order k` the coefficient of `(x - x0) ^ k`. -/
noncomputable def SNAIL.solve_expansion (s : SNAIL)
    (minimizeX : (ℝ → ℝ) → ℝ → ℝ)
    (approxTaylor : (ℝ → ℝ) → ℝ → ℕ → ℝ → ℕ → ℕ → ℝ)
    (degree : ℕ) (scale : ℝ) (order : Option ℕ) : ℝ × ℝ × (ℕ → ℝ) :=
  let order := resolveOrder order degree
  let phi_min := minimizeX s.potential s.phi_min_0
  let taylor_potential := approxTaylor s.potential phi_min degree scale order
  let a2 := taylor_potential 2
  let Ej := 1 / 2 / (2 * π * hbar * s.Lj * a2) * (flux_quantum / 2 / π) ^ 2
  (phi_min, Ej, taylor_potential)

/-- `SNAIL.truncated_potential`: reconstructs the potential function from the
Taylor coefficients and also returns `a3` and `a4`.  The Python loop runs
`for k in range(len(taylor_potential) + 1 - limit)`, and `len` of the
`np.poly1d` returned by the degree-`degree` Taylor fit is its polynomial
order `degree`. -/
noncomputable def SNAIL.truncated_potential (s : SNAIL)
    (minimizeX : (ℝ → ℝ) → ℝ → ℝ)
    (approxTaylor : (ℝ → ℝ) → ℝ → ℕ → ℝ → ℕ → ℕ → ℝ)
    (degree : ℕ) (scale : ℝ) (order : Option ℕ)
    (norm shift nonlinear : Bool) : (ℝ → ℝ) × ℝ × ℝ :=
  let res := s.solve_expansion minimizeX approxTaylor degree scale order
  let Ej := res.2.1
  let taylor_potential := res.2.2
  let phi_0 := if shift then res.1 else 0
  let limit : ℕ := if nonlinear then 3 else 0
  let a3 := taylor_potential 3
  let a4 := taylor_potential 4
  let potential : ℝ → ℝ := fun x =>
    ∑ k in Finset.range (degree + 1 - limit),
      (if norm then 1 else Ej) * taylor_potential (degree - k) *
        (x - phi_0) ^ (degree - k)
  (potential, a3, a4)

/-- The `SNAIL2` class of `snail_solver/elements.py`: same circuit as `SNAIL`
but parametrized by the junction energy `Ej` instead of the inductance. -/
structure SNAIL2 where
  Ej : ℝ
  n : ℕ
  alpha : ℝ
  phi_ext : ℝ

/-- `SNAIL2.potential`: potential at reduced flux `phi`; `norm = true`
normalizes the cosines (`Ej = 1`). -/
noncomputable def SNAIL2.potential (s : SNAIL2) (phi : ℝ) (norm : Bool) : ℝ :=
  let pot_branch1 := -s.alpha * Real.cos phi
  let pot_branch2 := -(s.n : ℝ) * Real.cos ((s.phi_ext - phi) / (s.n : ℝ))
  if norm then pot_branch1 + pot_branch2 else s.Ej * (pot_branch1 + pot_branch2)

/-- `SNAIL2.potential_derivative` with the `norm` flag. -/
noncomputable def SNAIL2.potential_derivative (s : SNAIL2) (phi : ℝ) (norm : Bool) : ℝ :=
  let pot_branch1_derivative := s.alpha * Real.sin phi
  let pot_branch2_derivative := -Real.sin ((s.phi_ext - phi) / (s.n : ℝ))
  (if norm then 1 else s.Ej) * (pot_branch1_derivative + pot_branch2_derivative)

/-- `SNAIL2.solve_expansion`: returns `(phi_min, Ej * taylor_potential)` where
the scalar `Ej` factor is `1` when `norm` is set.  The bound method
`self.potential` is passed to the external routines with its default
`norm=True`. -/
noncomputable def SNAIL2.solve_expansion (s : SNAIL2)
    (minimizeX : (ℝ → ℝ) → ℝ → ℝ)
    (approxTaylor : (ℝ → ℝ) → ℝ → ℕ → ℝ → ℕ → ℕ → ℝ)
    (degree : ℕ) (scale : ℝ) (order : Option ℕ) (norm : Bool) : ℝ × (ℕ → ℝ) :=
  let order := resolveOrder order degree
  let phi_min_0 := listMin ((arange (-π * (s.n : ℝ)) (π * (s.n : ℝ)) 0.01).map
    (fun phi => s.potential phi true))
  let phi_min := minimizeX (fun phi => s.potential phi true) phi_min_0
  let taylor_potential :=
    approxTaylor (fun phi => s.potential phi true) phi_min degree scale order
  let Ej := if norm then (1 : ℝ) else s.Ej
  (phi_min, fun k => Ej * taylor_potential k)

/-- `SNAIL2.inductance`: the SNAIL inductance `Lj` from the 2nd-order term of
the unnormalized (`norm=False`) expansion. -/
noncomputable def SNAIL2.inductance (s : SNAIL2)
    (minimizeX : (ℝ → ℝ) → ℝ → ℝ)
    (approxTaylor : (ℝ → ℝ) → ℝ → ℕ → ℝ → ℕ → ℕ → ℝ)
    (degree : ℕ) : ℝ :=
  let taylor_expansion :=
    (s.solve_expansion minimizeX approxTaylor degree (9 * π) none false).2
  let a2 := taylor_expansion 2
  1 / 2 / (2 * π * hbar * a2) * (flux_quantum / 2 / π) ^ 2

/-- `SNAIL2.truncated_potential`, same reconstruction loop as
`SNAIL.truncated_potential` but with the `Ej` scaling folded into the
coefficients by `solve_expansion`. -/
noncomputable def SNAIL2.truncated_potential (s : SNAIL2)
    (minimizeX : (ℝ → ℝ) → ℝ → ℝ)
    (approxTaylor : (ℝ → ℝ) → ℝ → ℕ → ℝ → ℕ → ℕ → ℝ)
    (degree : ℕ) (scale : ℝ) (order : Option ℕ)
    (norm shift nonlinear : Bool) : (ℝ → ℝ) × ℝ × ℝ :=
  let res := s.solve_expansion minimizeX approxTaylor degree scale order norm
  let taylor_potential := res.2
  let phi_0 := if shift then res.1 else 0
  let limit : ℕ := if nonlinear then 3 else 0
  let a3 := taylor_potential 3
  let a4 := taylor_potential 4
  let potential : ℝ → ℝ := fun x =>
    ∑ k in Finset.range (degree + 1 - limit),
      taylor_potential (degree - k) * (x - phi_0) ^ (degree - k)
  (potential, a3, a4)

/-- Standard evaluation of the polynomial with coefficients `c k` on `y ^ k`
up to order `degree` -- the spec's "the polynomial's value". -/
noncomputable def polyEval (c : ℕ → ℝ) (degree : ℕ) (y : ℝ) : ℝ :=
  ∑ k in Finset.range (degree + 1), c k * y ^ k

/-! ## The sweep driver `optimize_parameters_coupling.py` -/

/-- `fock_trunc = 18` in the driver. -/
def fock_trunc : ℕ := 18

/-- `relative_evals = np.real(cavity_evals - cavity_evals[0]) / 1e6`, over the
first `fock_trunc - 3 = 15` cavity eigenvalues produced by the circuit
diagonalization. -/
noncomputable def relative_evals (cavity_evals : Fin 15 → ℂ) (i : Fin 15) : ℝ :=
  (cavity_evals i - cavity_evals 0).re / 1e6

/-- `transit_energies = relative_evals[1:] - relative_evals[:-1]`. -/
noncomputable def transit_energies (cavity_evals : Fin 15 → ℂ) (j : Fin 14) : ℝ :=
  relative_evals cavity_evals j.succ - relative_evals cavity_evals j.castSucc

/-- `anharm = transit_energies[1:] - transit_energies[:-1]`. -/
noncomputable def anharm (cavity_evals : Fin 15 → ℂ) (k : Fin 13) : ℝ :=
  transit_energies cavity_evals k.succ - transit_energies cavity_evals k.castSucc

/-- `avg_kerr = 1000 * np.average(anharm)`. -/
noncomputable def avg_kerr (cavity_evals : Fin 15 → ℂ) : ℝ :=
  1000 * ((∑ k : Fin 13, anharm cavity_evals k) / 13)

/-- `max_kerr = 1000 * np.max(np.abs(anharm))`. -/
noncomputable def max_kerr (cavity_evals : Fin 15 → ℂ) : ℝ :=
  1000 * Finset.univ.sup' Finset.univ_nonempty (fun k : Fin 13 => |anharm cavity_evals k|)

/-- `alpha_list = np.arange(0.2, 0.4, 0.01)`. -/
noncomputable def alpha_list : List ℝ := arange 0.2 0.4 0.01

/-- `phi_ext_list = np.arange(0.2 * 2 * np.pi, 0.491 * 2 * np.pi,
0.01 * 2 * np.pi)`. -/
noncomputable def phi_ext_list : List ℝ :=
  arange (0.2 * 2 * π) (0.491 * 2 * π) (0.01 * 2 * π)

/-- Modelled from the spec: the body of the sweep loop assembles
`SNAIL.from_Lj`, `Ancilla` and `Circuit` (modules absent from the sources) and
diagonalizes the coupled ancilla+cavity Hamiltonian; the pair
`(avg_kerr, max_kerr)` it produces for a given `(alpha, phi_ext)` is
abstracted as a function `kerrs : ℝ → ℝ → ℝ × ℝ`.  The driver iterates
`alpha` in the outer loop and `phi_ext` in the inner loop, appending
`avg_kerr` to `cavity_kerr_list` and `max_kerr` to `max_kerr_list`. -/
noncomputable def sweep (kerrs : ℝ → ℝ → ℝ × ℝ) : List ℝ × List ℝ :=
  alpha_list.foldl
    (fun acc alpha =>
      phi_ext_list.foldl
        (fun acc2 phi_ext =>
          (acc2.1 ++ [(kerrs alpha phi_ext).1], acc2.2 ++ [(kerrs alpha phi_ext).2]))
        acc)
    ([], [])

/-! ## Helper lemmas -/

lemma foldl_min_le (l : List ℝ) : ∀ a : ℝ, l.foldl min a ≤ a := by
  induction l with
  | nil => intro a; simp
  | cons x xs ih => intro a; exact le_trans (ih (min a x)) (min_le_left a x)

lemma foldl_min_le_mem (l : List ℝ) : ∀ a x : ℝ, x ∈ l → l.foldl min a ≤ x := by
  induction l with
  | nil => intro a x hx; simp at hx
  | cons y ys ih =>
    intro a x hx
    rcases List.mem_cons.mp hx with h | h
    · subst h
      exact le_trans (foldl_min_le ys (min a x)) (min_le_right a x)
    · exact ih (min a y) x h

lemma listMin_le_of_mem (l : List ℝ) (x : ℝ) (hx : x ∈ l) : listMin l ≤ x := by
  cases l with
  | nil => simp at hx
  | cons y ys =>
    rcases List.mem_cons.mp hx with h | h
    · subst h
      exact foldl_min_le ys x
    · exact foldl_min_le_mem ys y x h

lemma le_foldl_min (l : List ℝ) :
    ∀ a c : ℝ, c ≤ a → (∀ x ∈ l, c ≤ x) → c ≤ l.foldl min a := by
  induction l with
  | nil => intro a c h _; simpa using h
  | cons y ys ih =>
    intro a c hca hall
    exact ih (min a y) c (le_min hca (hall y (by simp)))
      (fun x hx => hall x (by simp [hx]))

lemma le_listMin_of_forall (l : List ℝ) (c : ℝ) (hne : l ≠ [])
    (h : ∀ x ∈ l, c ≤ x) : c ≤ listMin l := by
  cases l with
  | nil => exact absurd rfl hne
  | cons x xs =>
    exact le_foldl_min xs x c (h x (by simp)) (fun y hy => h y (by simp [hy]))

lemma sum_range_sub_eq_sum_Icc (g : ℕ → ℝ) (d : ℕ) :
    ∀ m, m ≤ d + 1 →
      ∑ k in Finset.range m, g (d - k) = ∑ i in Finset.Icc (d + 1 - m) d, g i := by
  intro m
  induction m with
  | zero => intro _; simp
  | succ m ih =>
    intro hm
    have hm' : m ≤ d + 1 := Nat.le_of_succ_le hm
    rw [Finset.sum_range_succ, ih hm']
    have h1 : d + 1 - (m + 1) = d - m := by omega
    have h2 : d - m ∉ Finset.Icc (d + 1 - m) d := by
      simp only [Finset.mem_Icc]
      omega
    have h3 : Finset.Icc (d - m) d = insert (d - m) (Finset.Icc (d + 1 - m) d) := by
      ext i
      simp only [Finset.mem_Icc, Finset.mem_insert]
      omega
    rw [h1, h3, Finset.sum_insert h2]
    ring

lemma recon_full (c : ℕ → ℝ) (d : ℕ) (y : ℝ) :
    ∑ k in Finset.range (d + 1 - 0), c (d - k) * y ^ (d - k) = polyEval c d y := by
  have h := Finset.sum_range_reflect (fun j => c j * y ^ j) (d + 1)
  simpa [polyEval] using h

lemma recon_nonlinear (c : ℕ → ℝ) (d : ℕ) (y : ℝ) :
    ∑ k in Finset.range (d + 1 - 3), c (d - k) * y ^ (d - k) =
      ∑ i in Finset.Icc 3 d, c i * y ^ i := by
  have h := sum_range_sub_eq_sum_Icc (fun j => c j * y ^ j) d (d + 1 - 3) (by omega)
  rw [h]
  have : Finset.Icc (d + 1 - (d + 1 - 3)) d = Finset.Icc 3 d := by
    ext i
    simp only [Finset.mem_Icc]
    omega
  rw [this]

lemma pair_append_foldl (l : List ℝ) (f g : ℝ → ℝ) :
    ∀ acc : List ℝ × List ℝ,
      l.foldl (fun acc2 x => (acc2.1 ++ [f x], acc2.2 ++ [g x])) acc =
        (acc.1 ++ l.map f, acc.2 ++ l.map g) := by
  induction l with
  | nil => intro acc; simp
  | cons x xs ih => intro acc; simp [ih]

lemma pair_append_foldl_lists (l : List ℝ) (F G : ℝ → List ℝ) :
    ∀ acc : List ℝ × List ℝ,
      l.foldl (fun acc a => (acc.1 ++ F a, acc.2 ++ G a)) acc =
        (acc.1 ++ (l.map F).flatten, acc.2 ++ (l.map G).flatten) := by
  induction l with
  | nil => intro acc; simp
  | cons x xs ih => intro acc; simp [ih]

lemma sweep_eq (kerrs : ℝ → ℝ → ℝ × ℝ) :
    sweep kerrs =
      ((alpha_list.map (fun alpha =>
          phi_ext_list.map (fun phi_ext => (kerrs alpha phi_ext).1))).flatten,
        (alpha_list.map (fun alpha =>
          phi_ext_list.map (fun phi_ext => (kerrs alpha phi_ext).2))).flatten) := by
  simp only [sweep, pair_append_foldl, pair_append_foldl_lists, List.nil_append]

lemma alpha_list_length : alpha_list.length = 20 := by
  simp only [alpha_list, arange, List.length_map, List.length_range]
  rw [show ((0.4 : ℝ) - 0.2) / 0.01 = 20 by norm_num]
  rw [Nat.ceil_eq_iff (by norm_num)]
  norm_num

lemma phi_ext_list_length : phi_ext_list.length = 30 := by
  simp only [phi_ext_list, arange, List.length_map, List.length_range]
  rw [show ((0.491 : ℝ) * 2 * π - 0.2 * 2 * π) / (0.01 * 2 * π) = 29.1 by
    rw [div_eq_iff (by positivity)]; ring]
  rw [Nat.ceil_eq_iff (by norm_num)]
  norm_num

/-! ## Claims -/

/-- C5 -- For every SNAIL instance (with a nonzero junction count `n`, as in
every use of the class) and every real `phi`, the potential is the two-branch
cosine form `-alpha * cos phi - n * cos ((phi_ext - phi) / n)`, the derivative
method returns `alpha * sin phi - sin ((phi_ext - phi) / n)`, and the latter is
the exact pointwise derivative of the former with respect to `phi`. -/
theorem C5_potential_and_exact_derivative (s : SNAIL) (phi : ℝ) (hn : s.n ≠ 0) :
    s.potential phi =
      -s.alpha * Real.cos phi - (s.n : ℝ) * Real.cos ((s.phi_ext - phi) / (s.n : ℝ)) ∧
    s.potential_derivative phi =
      s.alpha * Real.sin phi - Real.sin ((s.phi_ext - phi) / (s.n : ℝ)) ∧
    HasDerivAt s.potential (s.potential_derivative phi) phi := by
  have hn' : (s.n : ℝ) ≠ 0 := Nat.cast_ne_zero.mpr hn
  refine ⟨by simp [SNAIL.potential]; ring, by simp [SNAIL.potential_derivative]; ring, ?_⟩
  have h1 : HasDerivAt (fun x : ℝ => -s.alpha * Real.cos x)
      (-s.alpha * -Real.sin phi) phi := (Real.hasDerivAt_cos phi).const_mul _
  have hinner : HasDerivAt (fun x : ℝ => (s.phi_ext - x) / (s.n : ℝ))
      (-1 / (s.n : ℝ)) phi := by
    simpa using ((hasDerivAt_id phi).const_sub s.phi_ext).div_const (s.n : ℝ)
  have h2 : HasDerivAt (fun x : ℝ => Real.cos ((s.phi_ext - x) / (s.n : ℝ)))
      (-Real.sin ((s.phi_ext - phi) / (s.n : ℝ)) * (-1 / (s.n : ℝ))) phi :=
    (Real.hasDerivAt_cos _).comp phi hinner
  have h3 := h1.add (h2.const_mul (-(s.n : ℝ)))
  have : -s.alpha * -Real.sin phi +
      -(s.n : ℝ) * (-Real.sin ((s.phi_ext - phi) / (s.n : ℝ)) * (-1 / (s.n : ℝ))) =
      s.potential_derivative phi := by
    simp only [SNAIL.potential_derivative]
    field_simp
    ring
  rw [this] at h3
  have hfun : (fun x : ℝ => -s.alpha * Real.cos x +
      -(s.n : ℝ) * Real.cos ((s.phi_ext - x) / (s.n : ℝ))) = s.potential := by
    funext x
    simp [SNAIL.potential]
  rw [← hfun]
  exact h3

/-- C5 witness at the driver's junction count `n = 3`. -/
theorem C5_potential_and_exact_derivative_witness :
    (SNAIL.mk 3 (0.29) (0.41) (25e-9)).potential 1 =
      -(0.29) * Real.cos 1 -
        ((3 : ℕ) : ℝ) * Real.cos (((0.41) - 1) / ((3 : ℕ) : ℝ)) ∧
    (SNAIL.mk 3 (0.29) (0.41) (25e-9)).potential_derivative 1 =
      (0.29) * Real.sin 1 - Real.sin (((0.41) - 1) / ((3 : ℕ) : ℝ)) ∧
    HasDerivAt (SNAIL.mk 3 (0.29) (0.41) (25e-9)).potential
      ((SNAIL.mk 3 (0.29) (0.41) (25e-9)).potential_derivative 1) 1 :=
  C5_potential_and_exact_derivative (SNAIL.mk 3 (0.29) (0.41) (25e-9)) 1 (by norm_num)

/-- C9 -- SNAIL and SNAIL2 agree on the normalized physics: for equal
parameters and every `phi`, `SNAIL.potential phi = SNAIL2.potential phi true`
and likewise for the derivatives, while `norm = false` returns exactly `Ej`
times the `norm = true` value. -/
theorem C9_snail_snail2_agree (n : ℕ) (alpha phi_ext Lj Ej phi : ℝ) :
    (SNAIL.mk n alpha phi_ext Lj).potential phi =
      (SNAIL2.mk Ej n alpha phi_ext).potential phi true ∧
    (SNAIL.mk n alpha phi_ext Lj).potential_derivative phi =
      (SNAIL2.mk Ej n alpha phi_ext).potential_derivative phi true ∧
    (SNAIL2.mk Ej n alpha phi_ext).potential phi false =
      Ej * (SNAIL2.mk Ej n alpha phi_ext).potential phi true ∧
    (SNAIL2.mk Ej n alpha phi_ext).potential_derivative phi false =
      Ej * (SNAIL2.mk Ej n alpha phi_ext).potential_derivative phi true := by
  refine ⟨rfl, ?_, rfl, ?_⟩ <;>
    simp [SNAIL.potential_derivative, SNAIL2.potential_derivative]

/-- C10 -- For every SNAIL with junction count `n ≥ 1`, the potential is
periodic in the flux with period `2 * π * n`, so the window `[0, 2 * π * n]`
used by `has_multiple_wells` spans exactly one full period. -/
theorem C10_potential_periodic (s : SNAIL) (hn : 1 ≤ s.n) (phi : ℝ) :
    s.potential (phi + 2 * π * (s.n : ℝ)) = s.potential phi := by
  have hn' : (s.n : ℝ) ≠ 0 := Nat.cast_ne_zero.mpr (by omega)
  simp only [SNAIL.potential]
  have hb1 : Real.cos (phi + 2 * π * (s.n : ℝ)) = Real.cos phi := by
    rw [show phi + 2 * π * (s.n : ℝ) = phi + (s.n : ℝ) * (2 * π) by ring]
    exact Real.cos_add_nat_mul_two_pi phi s.n
  have hb2 : (s.phi_ext - (phi + 2 * π * (s.n : ℝ))) / (s.n : ℝ) =
      (s.phi_ext - phi) / (s.n : ℝ) - 2 * π := by
    field_simp
    ring
  rw [hb1, hb2, Real.cos_sub_two_pi]

/-- C10 witness at the driver's junction count `n = 3`. -/
theorem C10_potential_periodic_witness :
    (SNAIL.mk 3 (0.29) (0.41) (25e-9)).potential (1 + 2 * π * ((3 : ℕ) : ℝ)) =
      (SNAIL.mk 3 (0.29) (0.41) (25e-9)).potential 1 :=
  C10_potential_periodic (SNAIL.mk 3 (0.29) (0.41) (25e-9)) (by norm_num) 1

/-- C1 -- The claim fails on the code: `solve_expansion` hands
`scipy.optimize.minimize` the starting point
`phi_min_0 = min(self.potential(phi) for phi in phi_array)`, which is the
minimum sampled potential VALUE, not a flux at which the sampled potential is
smallest.  For the SNAIL instance `(n, alpha, phi_ext, Lj) = (1, 3, 0, 25e-9)`
the potential at that starting point is strictly above the sampled minimum,
so the starting point is not a minimizing flux of the sampled potential. -/
theorem C1_start_value_not_minimizing_flux :
    (SNAIL.mk 1 3 0 (25e-9)).phi_min_0 =
      listMin (((SNAIL.mk 1 3 0 (25e-9)).phi_array).map
        (SNAIL.mk 1 3 0 (25e-9)).potential) ∧
    listMin (((SNAIL.mk 1 3 0 (25e-9)).phi_array).map
        (SNAIL.mk 1 3 0 (25e-9)).potential) <
      (SNAIL.mk 1 3 0 (25e-9)).potential (SNAIL.mk 1 3 0 (25e-9)).phi_min_0 := by
  have hπ₁ : (3.141592 : ℝ) < π := Real.pi_gt_d6
  have hπ₂ : π < 3.141593 := Real.pi_lt_d6
  have hpot : ∀ phi : ℝ, (SNAIL.mk 1 3 0 (25e-9)).potential phi = -4 * Real.cos phi := by
    intro phi
    simp [SNAIL.potential]
    ring
  have hg0mem : (-π * (((SNAIL.mk 1 3 0 (25e-9)).n : ℕ) : ℝ) + ((314 : ℕ) : ℝ) * 0.01) ∈
      (SNAIL.mk 1 3 0 (25e-9)).phi_array := by
    simp only [SNAIL.phi_array, arange]
    refine List.mem_map.mpr ⟨314, List.mem_range.mpr (Nat.lt_ceil.mpr ?_), rfl⟩
    push_cast
    rw [lt_div_iff₀ (by norm_num)]
    linarith
  have hg0pot :
      (SNAIL.mk 1 3 0 (25e-9)).potential
          (-π * (((SNAIL.mk 1 3 0 (25e-9)).n : ℕ) : ℝ) + ((314 : ℕ) : ℝ) * 0.01) ∈
        ((SNAIL.mk 1 3 0 (25e-9)).phi_array).map (SNAIL.mk 1 3 0 (25e-9)).potential :=
    List.mem_map_of_mem _ hg0mem
  have hg0val : (-π * (((SNAIL.mk 1 3 0 (25e-9)).n : ℕ) : ℝ) + ((314 : ℕ) : ℝ) * 0.01) =
      3.14 - π := by
    push_cast
    ring
  have hcosg0 : (0.4 : ℝ) ≤ Real.cos (3.14 - π) := by
    have h : 1 - (3.14 - π) ^ 2 / 2 ≤ Real.cos (3.14 - π) :=
      Real.one_sub_sq_div_two_le_cos
    nlinarith
  have hub : listMin (((SNAIL.mk 1 3 0 (25e-9)).phi_array).map
      (SNAIL.mk 1 3 0 (25e-9)).potential) ≤ -1.6 := by
    have h1 := listMin_le_of_mem _ _ hg0pot
    rw [hpot, hg0val] at h1
    nlinarith
  have hlb : (-4 : ℝ) ≤ listMin (((SNAIL.mk 1 3 0 (25e-9)).phi_array).map
      (SNAIL.mk 1 3 0 (25e-9)).potential) := by
    refine le_listMin_of_forall _ _ (List.ne_nil_of_mem hg0pot) ?_
    intro y hy
    obtain ⟨phi, _, rfl⟩ := List.mem_map.mp hy
    rw [hpot]
    nlinarith [Real.cos_le_one phi]
  refine ⟨rfl, ?_⟩
  have hm : (SNAIL.mk 1 3 0 (25e-9)).phi_min_0 =
      listMin (((SNAIL.mk 1 3 0 (25e-9)).phi_array).map
        (SNAIL.mk 1 3 0 (25e-9)).potential) := rfl
  rw [hm, hpot]
  have hcosm : Real.cos (listMin (((SNAIL.mk 1 3 0 (25e-9)).phi_array).map
      (SNAIL.mk 1 3 0 (25e-9)).potential)) ≤ 0 := by
    rw [← Real.cos_neg]
    refine Real.cos_nonpos_of_pi_div_two_le_of_le ?_ ?_
    · linarith
    · linarith
  nlinarith

/-- C2 -- The reported Kerr values are second finite differences of the first
`fock_trunc - 3 = 15` relative cavity eigenvalues; in particular, whenever the
15 eigenvalues are exactly equally spaced, both `avg_kerr` and `max_kerr`
vanish. -/
theorem C2_kerr_second_differences (e : Fin 15 → ℂ) (a d : ℂ)
    (h : ∀ i : Fin 15, e i = a + ((i : ℕ) : ℂ) * d) :
    fock_trunc - 3 = 15 ∧ avg_kerr e = 0 ∧ max_kerr e = 0 := by
  have hrel : ∀ i : Fin 15, relative_evals e i = (i : ℕ) * d.re / 1e6 := by
    intro i
    have he : e i - e 0 = ((i : ℕ) : ℂ) * d := by
      rw [h i, h 0]
      simp
    simp only [relative_evals, he, Complex.mul_re, Complex.natCast_re,
      Complex.natCast_im]
    ring
  have hanharm : ∀ k : Fin 13, anharm e k = 0 := by
    intro k
    simp only [anharm, transit_energies, hrel, Fin.val_succ, Fin.coe_castSucc]
    push_cast
    ring
  refine ⟨rfl, ?_, ?_⟩
  · simp [avg_kerr, hanharm]
  · simp [max_kerr, hanharm]

/-- C2 witness: the equally spaced spectrum `e i = i` gives zero Kerr. -/
theorem C2_kerr_second_differences_witness :
    fock_trunc - 3 = 15 ∧ avg_kerr (fun i => ((i : ℕ) : ℂ)) = 0 ∧
      max_kerr (fun i => ((i : ℕ) : ℂ)) = 0 :=
  C2_kerr_second_differences (fun i => ((i : ℕ) : ℂ)) 0 1 (by intro i; simp)

/-- C8 -- At every sweep iteration the reported maximum Kerr dominates the
average: `max_kerr ≥ 0` and `max_kerr ≥ |avg_kerr|`, because the maximum of
the absolute second differences bounds the absolute value of their mean. -/
theorem C8_max_kerr_dominates_avg_kerr (e : Fin 15 → ℂ) :
    0 ≤ max_kerr e ∧ |avg_kerr e| ≤ max_kerr e := by
  set M : ℝ := Finset.univ.sup' Finset.univ_nonempty
    (fun k : Fin 13 => |anharm e k|) with hM
  have hle : ∀ k : Fin 13, |anharm e k| ≤ M :=
    fun k => Finset.le_sup' (fun k : Fin 13 => |anharm e k|) (Finset.mem_univ k)
  have hM0 : 0 ≤ M := le_trans (abs_nonneg _) (hle 0)
  have habs : |∑ k : Fin 13, anharm e k| ≤ ∑ k : Fin 13, |anharm e k| :=
    Finset.abs_sum_le_sum_abs _ _
  have hsum : (∑ k : Fin 13, |anharm e k|) ≤ 13 * M := by
    calc (∑ k : Fin 13, |anharm e k|) ≤ ∑ _k : Fin 13, M :=
          Finset.sum_le_sum (fun k _ => hle k)
      _ = 13 * M := by
          simp [Finset.sum_const, Finset.card_univ]
  have key : |∑ k : Fin 13, anharm e k| ≤ 13 * M := habs.trans hsum
  have havg : |avg_kerr e| = 1000 * |∑ k : Fin 13, anharm e k| / 13 := by
    rw [avg_kerr, abs_mul, abs_div]
    norm_num
    ring
  constructor
  · rw [max_kerr, ← hM]
    linarith
  · rw [havg, max_kerr, ← hM]
    linarith

/-- C3 -- The sweep visits every pair `(alpha, phi_ext)`, alpha in the outer
loop and phi_ext in the inner loop, appending exactly one `avg_kerr` and one
`max_kerr` per pair; both result lists have length
`len(alpha_list) * len(phi_ext_list) = 20 * 30` and are exactly the
row-major flattening of the grid whose row `i` is indexed by `alpha_list[i]`
and whose columns are indexed by `phi_ext_list`. -/
theorem C3_sweep_visits_grid (kerrs : ℝ → ℝ → ℝ × ℝ) :
    (sweep kerrs).1 =
      (alpha_list.map (fun alpha =>
        phi_ext_list.map (fun phi_ext => (kerrs alpha phi_ext).1))).flatten ∧
    (sweep kerrs).2 =
      (alpha_list.map (fun alpha =>
        phi_ext_list.map (fun phi_ext => (kerrs alpha phi_ext).2))).flatten ∧
    (sweep kerrs).1.length = alpha_list.length * phi_ext_list.length ∧
    (sweep kerrs).2.length = alpha_list.length * phi_ext_list.length ∧
    alpha_list.length = 20 ∧ phi_ext_list.length = 30 := by
  have hlen : ∀ pr : ℝ × ℝ → ℝ,
      ((alpha_list.map (fun alpha =>
        phi_ext_list.map (fun phi_ext => pr (kerrs alpha phi_ext)))).flatten).length =
        alpha_list.length * phi_ext_list.length := by
    intro pr
    simp [List.length_flatten, List.map_map, Function.comp_def, mul_comm]
  rw [sweep_eq kerrs]
  exact ⟨rfl, rfl, hlen _, hlen _, alpha_list_length, phi_ext_list_length⟩

/-- C7 -- The sweep is a deterministic pure computation: its output is fully
determined by the per-pair Kerr values on the visited grid, so two runs whose
circuit computations agree on every visited `(alpha, phi_ext)` pair produce
identical `avg_kerr` and `max_kerr` result lists. -/
theorem C7_sweep_deterministic (kerrs1 kerrs2 : ℝ → ℝ → ℝ × ℝ)
    (h : ∀ alpha ∈ alpha_list, ∀ phi_ext ∈ phi_ext_list,
      kerrs1 alpha phi_ext = kerrs2 alpha phi_ext) :
    sweep kerrs1 = sweep kerrs2 := by
  have hmap : ∀ pr : ℝ × ℝ → ℝ,
      alpha_list.map (fun alpha =>
        phi_ext_list.map (fun phi_ext => pr (kerrs1 alpha phi_ext))) =
      alpha_list.map (fun alpha =>
        phi_ext_list.map (fun phi_ext => pr (kerrs2 alpha phi_ext))) := by
    intro pr
    refine List.map_congr_left (fun alpha ha => ?_)
    refine List.map_congr_left (fun phi_ext hp => ?_)
    rw [h alpha ha phi_ext hp]
  rw [sweep_eq kerrs1, sweep_eq kerrs2, hmap Prod.fst, hmap Prod.snd]

/-- C7 witness: two syntactically different but pointwise equal circuit
computations give the same sweep output. -/
theorem C7_sweep_deterministic_witness :
    sweep (fun alpha _phi => (alpha * 0, 0)) = sweep (fun _alpha _phi => (0, 0)) :=
  C7_sweep_deterministic _ _ (by intro alpha _ phi _; simp)

/-- C4 -- `SNAIL2.inductance` returns
`(flux_quantum / (2 * pi)) ^ 2 / (2 * 2 * pi * hbar * a2)` where `a2` is the
second-order coefficient of the unnormalized (`norm=False`, i.e. scaled by
`Ej`) Taylor expansion of the potential around its minimum. -/
theorem C4_inductance_from_unnormalized_a2 (s : SNAIL2)
    (minimizeX : (ℝ → ℝ) → ℝ → ℝ)
    (approxTaylor : (ℝ → ℝ) → ℝ → ℕ → ℝ → ℕ → ℕ → ℝ) (degree : ℕ) :
    s.inductance minimizeX approxTaylor degree =
      (flux_quantum / (2 * π)) ^ 2 /
        (2 * (2 * π) * hbar *
          ((s.solve_expansion minimizeX approxTaylor degree (9 * π) none false).2 2)) ∧
    (s.solve_expansion minimizeX approxTaylor degree (9 * π) none false).2 2 =
      s.Ej *
        ((s.solve_expansion minimizeX approxTaylor degree (9 * π) none true).2 2) := by
  constructor
  · simp only [SNAIL2.inductance]
    generalize ((s.solve_expansion minimizeX approxTaylor degree (9 * π) none false).2 2) = A
    rw [div_div flux_quantum, div_div (1 : ℝ)]
    rw [div_eq_mul_inv, div_eq_mul_inv, div_eq_mul_inv, mul_inv, mul_inv, mul_inv,
      mul_inv, mul_inv]
    ring
  · simp only [SNAIL2.solve_expansion]
    simp

/-- C6 -- With `norm=True`, `shift=True`, `nonlinear=False` the function
returned by `truncated_potential` reconstructs the fitted polynomial exactly:
at every `x` it equals the Taylor polynomial evaluated at `x - phi_min`, and
the returned `a3`, `a4` are the 3rd- and 4th-order coefficients; with
`nonlinear=True` the reconstruction keeps exactly the terms of order `3` to
`degree`, omitting orders `0`, `1` and `2`.  Stated for both `SNAIL` and
`SNAIL2`. -/
theorem C6_truncated_potential_reconstruction (s : SNAIL) (s2 : SNAIL2)
    (minimizeX : (ℝ → ℝ) → ℝ → ℝ)
    (approxTaylor : (ℝ → ℝ) → ℝ → ℕ → ℝ → ℕ → ℕ → ℝ)
    (degree : ℕ) (scale : ℝ) (order : Option ℕ) (x : ℝ) :
    (s.truncated_potential minimizeX approxTaylor degree scale order
        true true false).1 x =
      polyEval (s.solve_expansion minimizeX approxTaylor degree scale order).2.2 degree
        (x - (s.solve_expansion minimizeX approxTaylor degree scale order).1) ∧
    (s.truncated_potential minimizeX approxTaylor degree scale order
        true true false).2.1 =
      (s.solve_expansion minimizeX approxTaylor degree scale order).2.2 3 ∧
    (s.truncated_potential minimizeX approxTaylor degree scale order
        true true false).2.2 =
      (s.solve_expansion minimizeX approxTaylor degree scale order).2.2 4 ∧
    (s.truncated_potential minimizeX approxTaylor degree scale order
        true true true).1 x =
      ∑ i in Finset.Icc 3 degree,
        (s.solve_expansion minimizeX approxTaylor degree scale order).2.2 i *
          (x - (s.solve_expansion minimizeX approxTaylor degree scale order).1) ^ i ∧
    (s2.truncated_potential minimizeX approxTaylor degree scale order
        true true false).1 x =
      polyEval (s2.solve_expansion minimizeX approxTaylor degree scale order true).2
        degree
        (x - (s2.solve_expansion minimizeX approxTaylor degree scale order true).1) ∧
    (s2.truncated_potential minimizeX approxTaylor degree scale order
        true true false).2.1 =
      (s2.solve_expansion minimizeX approxTaylor degree scale order true).2 3 ∧
    (s2.truncated_potential minimizeX approxTaylor degree scale order
        true true false).2.2 =
      (s2.solve_expansion minimizeX approxTaylor degree scale order true).2 4 ∧
    (s2.truncated_potential minimizeX approxTaylor degree scale order
        true true true).1 x =
      ∑ i in Finset.Icc 3 degree,
        (s2.solve_expansion minimizeX approxTaylor degree scale order true).2 i *
          (x - (s2.solve_expansion minimizeX approxTaylor degree scale order true).1) ^ i := by
  simp only [SNAIL.truncated_potential, SNAIL2.truncated_potential, if_true,
    Bool.false_eq_true, if_false, one_mul]
  refine ⟨?_, trivial, trivial, ?_, ?_, trivial, trivial, ?_⟩
  · exact recon_full _ degree _
  · exact recon_nonlinear _ degree _
  · exact recon_full _ degree _
  · exact recon_nonlinear _ degree _

end SnailSolver
